import Mathlib

/-!
Shallow embedding of the live-schedule engine (TVPlayer schedule builder,
position resolver, guide query, shuffle-retry loop and duration probing).

Conventions of the embedding:
* Timestamps (`datetime` values in the source) are integers in milliseconds
  (`Int`); `timedelta(milliseconds=d)` is integer addition.
* The ad-segment metadata that the source JSON-encodes into the string field
  normally holding a file path is modelled as a tagged variant `MediaRef`
  (constructor `adSeg` carries path, start_offset and segment duration; the
  resolver's JSON round-trip is the identity on this variant).
* `random.shuffle` is external randomness: the build functions take the
  already-shuffled `shows`/`ads` lists; the shuffle-retry loop takes the
  sequence of candidate shuffles as a function `Nat → List String`.
* The two `while` loops of `_build_tv_schedule` are fuel-indexed structural
  recursions returning `Option`; `none` marks fuel exhaustion (which is how a
  non-terminating Python loop shows up in the model).
-/

/-- Tagged reference to the media played in a slot. The source stores either a
plain file path (a show) or a JSON blob `\x7b path, start_offset, duration \x7d`
(an ad segment, lines 3584-3589 of the source). -/
inductive MediaRef where
  | showRef (path : String)
  | adSeg (path : String) (start_offset : Nat) (seg_duration : Nat)
deriving DecidableEq

/-- One schedule slot: the source's tuple `(start_time, program, duration, is_ad)`. -/
structure ScheduleEntry where
  start_time : Int
  program : MediaRef
  duration : Nat
  is_ad : Bool
deriving DecidableEq

/-- `sum(duration for _, _, duration, _ in schedule)` (source line 3631). -/
def totalDuration (sched : List ScheduleEntry) : Nat :=
  (sched.map (fun e => e.duration)).sum

/-- Accumulated duration of the entries strictly before index `i`. -/
def accBefore (sched : List ScheduleEntry) (i : Nat) : Nat :=
  totalDuration (sched.take i)

/-- `probe_duration` (source lines 132-145): the ffprobe subprocess result is
abstracted as `Option Int` (`none` = ffprobe missing or any exception, in which
case the fixed fallback 30000 ms is returned; `some ms` = the parsed output
`int(float(out) * 1000)`, clamped below by 1000). -/
def probe_duration (probed : Option Int) : Int :=
  match probed with
  | none => 30000
  | some ms => max 1000 ms

/-- The body of the shuffle-retry loop (source lines 3537-3542), indexed by the
number of remaining attempts `k = 5 - attempts`. `cand a` is the list produced
by the `(a+1)`-th `random.shuffle`; when all attempts are used up the loop
exits with the last shuffle still in place (`cand (attempts - 1)`). -/
def shuffleGo (cand : Nat → List String) (prev : List String) :
    Nat → Nat → List String
  | 0, attempts => cand (attempts - 1)
  | k + 1, attempts =>
      let s := cand attempts
      if s ≠ prev ∨ s.length < 2 then s
      else shuffleGo cand prev k (attempts + 1)

/-- The whole retry loop: `attempts = 0`, at most 5 shuffles. -/
def shuffleLoop (cand : Nat → List String) (prev : List String) : List String :=
  shuffleGo cand prev 5 0

/-- The order written to `_last_show_order[channel]` and `_save_last_order`
(source lines 3543-3545): the accepted shuffle, persisted unconditionally,
overwriting the previous remembered order. -/
def persistedOrder (cand : Nat → List String) (prev : List String) : List String :=
  shuffleLoop cand prev

/-- Inner ad-break loop (source lines 3579-3594):
`while remaining_time > 0 and ads:` pick `ads[ad_index % len(ads)]`, place an
ad segment of duration `min(duration, remaining_time)`, advance `current_time`,
decrement the budget, bump `ad_index`. Fuel-indexed; returns the placed
entries, the new `current_time` and the new `ad_index`. -/
def adLoop (dur : String → Nat) (ads : List String) :
    Nat → Nat → Int → Nat → Option (List ScheduleEntry × Int × Nat)
  | 0, remaining, ct, ai =>
      if 0 < remaining ∧ ads ≠ [] then none else some ([], ct, ai)
  | fuel + 1, remaining, ct, ai =>
      if 0 < remaining ∧ ads ≠ [] then
        let a := ads.getD (ai % ads.length) ""
        let adDur := min (dur a) remaining
        match adLoop dur ads fuel (remaining - adDur) (ct + (adDur : Int)) (ai + 1) with
        | none => none
        | some (rest, ct2, ai2) =>
            some (⟨ct, MediaRef.adSeg a 0 adDur, adDur, true⟩ :: rest, ct2, ai2)
      else some ([], ct, ai)

/-- Outer schedule-building loop (source lines 3562-3594):
`while current_time < end_time:` place `shows[show_index % len(shows)]`,
advance, and after every second show insert an ad break of budget `adBreakMs`
(`ad_break_minutes * 60 * 1000`) when `ads` is non-empty. The inner loop gets
fuel `adBreakMs`, which is enough for every terminating run (each iteration
consumes at least 1 ms of budget). -/
def buildLoop (dur : String → Nat) (shows ads : List String) (adBreakMs : Nat)
    (endTime : Int) : Nat → Int → Nat → Nat → Option (List ScheduleEntry)
  | 0, ct, _, _ => if ct < endTime then none else some []
  | fuel + 1, ct, si, ai =>
      if ct < endTime then
        let s := shows.getD (si % shows.length) ""
        let sd := dur s
        let showEntry : ScheduleEntry := ⟨ct, MediaRef.showRef s, sd, false⟩
        let ct2 := ct + (sd : Int)
        let si2 := si + 1
        if ads ≠ [] ∧ si2 % 2 = 0 then
          match adLoop dur ads adBreakMs adBreakMs ct2 ai with
          | none => none
          | some (adEntries, ct3, ai2) =>
              match buildLoop dur shows ads adBreakMs endTime fuel ct3 si2 ai2 with
              | none => none
              | some rest => some (showEntry :: (adEntries ++ rest))
        else
          match buildLoop dur shows ads adBreakMs endTime fuel ct2 si2 ai with
          | none => none
          | some rest => some (showEntry :: rest)
      else some []

/-- The 48-hour horizon (`timedelta(hours=48)`, source line 3556), in ms. -/
def horizonMs : Nat := 48 * 60 * 60 * 1000

/-- `_build_tv_schedule` for a channel whose (already shuffled) show and ad
file lists are `shows`/`ads` (source lines 3549-3597): empty `shows` yields an
empty schedule, otherwise the build loop runs from `epoch`
(`global_schedule_start`) to `epoch + 48h`. -/
def build_tv_schedule (dur : String → Nat) (shows ads : List String)
    (adBreakMs : Nat) (epoch : Int) (fuel : Nat) : Option (List ScheduleEntry) :=
  if shows = [] then some []
  else buildLoop dur shows ads adBreakMs (epoch + (horizonMs : Int)) fuel epoch 0 0

/-- What `get_current_program` returns (minus the redundant unpacked
`segment_info` dict, which `MediaRef` already carries). -/
structure ProgramInfo where
  program_start : Int
  program : MediaRef
  duration : Nat
  is_ad : Bool
deriving DecidableEq

/-- Linear scan of source lines 3646-3670: find the entry whose accumulated
interval contains `pos`, returning the accumulated duration before it. -/
def findEntry (pos : Nat) : List ScheduleEntry → Nat → Option (Nat × ScheduleEntry)
  | [], _ => none
  | e :: rest, acc =>
      if acc ≤ pos ∧ pos < acc + e.duration then some (acc, e)
      else findEntry pos rest (acc + e.duration)

/-- `get_current_program` (source lines 3619-3685) as a pure function of the
schedule, the global schedule start and `now`. `(now - epoch).toNat` is the
`max(0, elapsed)` clamp of lines 3639-3640; the final branch is the
"shouldn't reach here" fallback of lines 3672-3683. -/
def get_current_program (sched : List ScheduleEntry) (epoch now : Int) :
    Option ProgramInfo :=
  if sched = [] then none
  else if totalDuration sched = 0 then none
  else
    match findEntry ((now - epoch).toNat % totalDuration sched) sched 0 with
    | some (acc, e) =>
        some ⟨epoch + (((now - epoch).toNat / totalDuration sched * totalDuration sched
                + acc : Nat) : Int), e.program, e.duration, e.is_ad⟩
    | none =>
        match sched with
        | [] => none
        | e :: _ => some ⟨epoch, e.program, e.duration, e.is_ad⟩

/-- `get_schedule_for_guide` (source lines 3599-3617): entries whose build-time
start lies in `[ws, ws + hours*3600000)`, with the currently-playing entry
prepended when it started before the window but ends inside it, unless the
first filtered entry already starts at the same time. -/
def get_schedule_for_guide (sched : List ScheduleEntry) (epoch now ws : Int)
    (hours : Nat) : List ScheduleEntry :=
  let endT := ws + ((hours * 3600000 : Nat) : Int)
  let items := sched.filter (fun e => decide (ws ≤ e.start_time ∧ e.start_time < endT))
  match get_current_program sched epoch now with
  | none => items
  | some c =>
      if c.program_start < ws ∧ ws < c.program_start + (c.duration : Int) then
        match items with
        | [] => [⟨c.program_start, c.program, c.duration, c.is_ad⟩]
        | i :: rest =>
            if i.start_time ≠ c.program_start then
              ⟨c.program_start, c.program, c.duration, c.is_ad⟩ :: i :: rest
            else i :: rest
      else items

/-- Modelled from the spec: the guide query exactly as claim C7 words it — the
window-filtered entries, plus the in-progress current entry prepended whenever
it started before the window start but ends after it (no dedup guard). Used
only to compare `get_schedule_for_guide` against the claim. -/
def guideSpec (sched : List ScheduleEntry) (epoch now ws : Int)
    (hours : Nat) : List ScheduleEntry :=
  let endT := ws + ((hours * 3600000 : Nat) : Int)
  let items := sched.filter (fun e => decide (ws ≤ e.start_time ∧ e.start_time < endT))
  match get_current_program sched epoch now with
  | none => items
  | some c =>
      if c.program_start < ws ∧ ws < c.program_start + (c.duration : Int) then
        ⟨c.program_start, c.program, c.duration, c.is_ad⟩ :: items
      else items

/-- A list of entries laid out back-to-back starting at `t`: each entry starts
exactly where its predecessor ended. -/
def contigFrom : Int → List ScheduleEntry → Prop
  | _, [] => True
  | t, e :: rest => e.start_time = t ∧ contigFrom (t + (e.duration : Int)) rest

/-! Basic lemmas about durations and the inner loops. -/

lemma totalDuration_nil : totalDuration [] = 0 := rfl

lemma totalDuration_cons (e : ScheduleEntry) (rest : List ScheduleEntry) :
    totalDuration (e :: rest) = e.duration + totalDuration rest := by
  simp [totalDuration]

lemma totalDuration_append (xs ys : List ScheduleEntry) :
    totalDuration (xs ++ ys) = totalDuration xs + totalDuration ys := by
  simp [totalDuration]

lemma adLoop_zero (dur : String → Nat) (ads : List String) (fuel : Nat) (ct : Int)
    (ai : Nat) : adLoop dur ads fuel 0 ct ai = some ([], ct, ai) := by
  cases fuel <;> simp [adLoop]

/-- C8: duration probing never raises and fails soft: on a probe error (or a
missing prober) `probe_duration` returns the fixed 30000 ms fallback, and every
value it returns is at least 1000 ms, so a bad file cannot abort a channel's
schedule build. -/
theorem probe_duration_fails_soft :
    probe_duration none = 30000 ∧ ∀ probed, 1000 ≤ probe_duration probed := by
  refine ⟨rfl, ?_⟩
  intro probed
  cases probed with
  | none => norm_num [probe_duration]
  | some ms => simp only [probe_duration]; exact le_max_left _ _

/-- C6: a channel with no shows builds an empty timeline, and the position
resolver returns `none` on an empty timeline, or on any timeline of total
duration zero, for every `now` (it is a total function, so it never raises). -/
theorem empty_content_off_air :
    (∀ dur ads adBreakMs epoch fuel,
        build_tv_schedule dur [] ads adBreakMs epoch fuel = some [])
    ∧ (∀ epoch now, get_current_program [] epoch now = none)
    ∧ (∀ sched epoch now, totalDuration sched = 0 →
        get_current_program sched epoch now = none) := by
  refine ⟨fun _ _ _ _ _ => rfl, fun _ _ => rfl, ?_⟩
  intro sched epoch now h0
  cases sched with
  | nil => rfl
  | cons e rest => simp [get_current_program, h0]

/-- Witness for C6 at a concrete zero-duration timeline. -/
theorem empty_content_off_air_witness :
    totalDuration [⟨0, MediaRef.showRef "x", 0, false⟩] = 0
    ∧ get_current_program [⟨0, MediaRef.showRef "x", 0, false⟩] 0 5 = none :=
  ⟨by decide, empty_content_off_air.2.2 [⟨0, MediaRef.showRef "x", 0, false⟩] 0 5 (by decide)⟩

/-! The guide query (C7). -/

lemma filter_start_ge (sched : List ScheduleEntry) (ws endT : Int) :
    ∀ i ∈ sched.filter (fun e => decide (ws ≤ e.start_time ∧ e.start_time < endT)),
      ws ≤ i.start_time := by
  intro i hi
  have h := List.of_mem_filter hi
  simp only [decide_eq_true_eq] at h
  exact h.1

/-- C7: the guide query returns exactly the timeline entries whose build-time
start falls inside the window, plus — when the currently-playing entry started
before the window start but ends after it — that in-progress entry prepended
at the front: `get_schedule_for_guide` coincides with the spec-worded
`guideSpec` on every input (the source's dedup guard on the first filtered
entry can never fire, because every filtered entry starts at or after the
window start while the prepended entry starts strictly before it). -/
theorem guide_window_matches_spec (sched : List ScheduleEntry) (epoch now ws : Int)
    (hours : Nat) :
    get_schedule_for_guide sched epoch now ws hours = guideSpec sched epoch now ws hours := by
  unfold get_schedule_for_guide guideSpec
  cases hc : get_current_program sched epoch now with
  | none => rfl
  | some c =>
      simp only
      by_cases hov : c.program_start < ws ∧ ws < c.program_start + (c.duration : Int)
      · rw [if_pos hov, if_pos hov]
        cases hitems : sched.filter
            (fun e => decide (ws ≤ e.start_time ∧ e.start_time <
              ws + ((hours * 3600000 : Nat) : Int))) with
        | nil => rfl
        | cons i rest =>
            have hws : ws ≤ i.start_time := by
              refine filter_start_ge sched ws (ws + ((hours * 3600000 : Nat) : Int)) i ?_
              rw [hitems]
              exact List.mem_cons_self _ _
            have hne : i.start_time ≠ c.program_start := by
              intro habs
              rw [habs] at hws
              exact absurd hov.1 (not_lt.mpr hws)
            simp [hne]
      · rw [if_neg hov, if_neg hov]

/-! The shuffle-retry loop (C4). -/

lemma shuffleGo_collides (cand : Nat → List String) (prev : List String)
    (hlen : 2 ≤ prev.length) :
    ∀ k attempts, shuffleGo cand prev k attempts = prev →
      ∀ b, attempts ≤ b → b < attempts + k → cand b = prev := by
  intro k
  induction k with
  | zero => intro attempts _ b hb1 hb2; omega
  | succ k ih =>
      intro attempts hres b hb1 hb2
      simp only [shuffleGo] at hres
      by_cases hcond : cand attempts ≠ prev ∨ (cand attempts).length < 2
      · rw [if_pos hcond] at hres
        rcases hcond with h | h
        · exact absurd hres h
        · rw [hres] at h; omega
      · rw [if_neg hcond] at hres
        push_neg at hcond
        rcases Nat.eq_or_lt_of_le hb1 with heq | hlt
        · rw [← heq]; exact hcond.1
        · exact ih (attempts + 1) hres b hlt (by omega)

lemma shuffleGo_depends (cand cand2 : Nat → List String) (prev : List String) :
    ∀ k attempts, attempts + k = 5 → (∀ b, b < 5 → cand b = cand2 b) →
      shuffleGo cand prev k attempts = shuffleGo cand2 prev k attempts := by
  intro k
  induction k with
  | zero =>
      intro attempts h5 hb
      simp only [shuffleGo]
      exact hb (attempts - 1) (by omega)
  | succ k ih =>
      intro attempts h5 hb
      simp only [shuffleGo]
      rw [hb attempts (by omega)]
      by_cases hcond : cand2 attempts ≠ prev ∨ (cand2 attempts).length < 2
      · rw [if_pos hcond, if_pos hcond]
      · rw [if_neg hcond, if_neg hcond]
        exact ih (attempts + 1) (by omega) hb

/-- C4: the shuffle-retry loop never settles on an order equal to the previous
remembered order for a list of at least 2 shows unless all 5 shuffle attempts
produced that same order; with fewer than 2 items the no-repeat check is
skipped (the first shuffle is accepted as-is); the loop consults at most the
first 5 candidate shuffles (the retry count is bounded by 5); and the accepted
order is what gets persisted, overwriting the previous remembered order. -/
theorem shuffle_no_immediate_repeat (cand : Nat → List String) (prev : List String) :
    (2 ≤ prev.length → shuffleLoop cand prev = prev → ∀ a, a < 5 → cand a = prev)
    ∧ ((cand 0).length < 2 → shuffleLoop cand prev = cand 0)
    ∧ (∀ cand2, (∀ b, b < 5 → cand b = cand2 b) →
        shuffleLoop cand prev = shuffleLoop cand2 prev)
    ∧ persistedOrder cand prev = shuffleLoop cand prev := by
  refine ⟨?_, ?_, ?_, rfl⟩
  · intro hlen hres a ha
    exact shuffleGo_collides cand prev hlen 5 0 hres a (Nat.zero_le _) (by omega)
  · intro hshort
    have hstep : shuffleLoop cand prev =
        if cand 0 ≠ prev ∨ (cand 0).length < 2 then cand 0
        else shuffleGo cand prev 4 1 := rfl
    rw [hstep, if_pos (Or.inr hshort)]
  · intro cand2 hb
    exact shuffleGo_depends cand cand2 prev 5 0 rfl hb

/-- Witness for C4: a constant candidate stream equal to the previous order
collides on all 5 attempts, and a singleton list skips the check. -/
theorem shuffle_no_immediate_repeat_witness :
    (fun _ : Nat => ["a", "b"]) 3 = ["a", "b"]
    ∧ shuffleLoop (fun _ => ["x"]) ["a", "b"] = ["x"] :=
  ⟨(shuffle_no_immediate_repeat (fun _ => ["a", "b"]) ["a", "b"]).1 (by decide)
      (by decide) 3 (by decide),
   (shuffle_no_immediate_repeat (fun _ => ["x"]) ["a", "b"]).2.1 (by decide)⟩

/-! The position resolver (C1, C5). -/

lemma accBefore_zero (sched : List ScheduleEntry) : accBefore sched 0 = 0 := rfl

lemma accBefore_cons_succ (e : ScheduleEntry) (rest : List ScheduleEntry) (j : Nat) :
    accBefore (e :: rest) (j + 1) = e.duration + accBefore rest j := by
  simp [accBefore, totalDuration]

lemma findEntry_at :
    ∀ (sched : List ScheduleEntry) (acc pos i : Nat) (hi : i < sched.length),
      acc + accBefore sched i ≤ pos →
      pos < acc + accBefore sched i + (sched.get ⟨i, hi⟩).duration →
      findEntry pos sched acc = some (acc + accBefore sched i, sched.get ⟨i, hi⟩) := by
  intro sched
  induction sched with
  | nil => intro acc pos i hi; simp at hi
  | cons e rest ih =>
      intro acc pos i hi hlo hhi
      cases i with
      | zero =>
          rw [accBefore_zero] at hlo hhi ⊢
          simp only [findEntry, List.get]
          rw [if_pos ⟨by omega, by simpa using hhi⟩]
          simp
      | succ j =>
          rw [accBefore_cons_succ] at hlo hhi ⊢
          have hj : j < rest.length := by simpa using hi
          simp only [findEntry]
          rw [if_neg (by omega)]
          have hrec := ih (acc + e.duration) pos j hj (by omega) (by
            have hgd : (rest.get ⟨j, hj⟩).duration = ((e :: rest).get ⟨j + 1, hi⟩).duration := rfl
            omega)
          have hadd : acc + (e.duration + accBefore rest j) = acc + e.duration + accBefore rest j := by
            omega
          have hget : (e :: rest).get ⟨j + 1, hi⟩ = rest.get ⟨j, hj⟩ := rfl
          rw [hadd, hget]
          exact hrec

lemma findEntry_isSome :
    ∀ (sched : List ScheduleEntry) (acc pos : Nat),
      acc ≤ pos → pos < acc + totalDuration sched →
      (findEntry pos sched acc).isSome = true := by
  intro sched
  induction sched with
  | nil =>
      intro acc pos h1 h2
      rw [totalDuration_nil] at h2
      omega
  | cons e rest ih =>
      intro acc pos h1 h2
      rw [totalDuration_cons] at h2
      simp only [findEntry]
      by_cases hc : acc ≤ pos ∧ pos < acc + e.duration
      · rw [if_pos hc]; rfl
      · rw [if_neg hc]
        exact ih (acc + e.duration) pos (by omega) (by omega)

/-- C1: on a non-empty timeline of positive total duration `T`, the resolver
computes `position = (max 0 (now - epoch)) % T` and returns exactly the entry
whose accumulated-duration interval contains that position, with
`program_start = epoch + (elapsed / T) * T + accumulated-duration-before-it`. -/
theorem get_current_program_locates (sched : List ScheduleEntry) (epoch now : Int)
    (i : Nat) (hi : i < sched.length) (hT : 0 < totalDuration sched)
    (hlo : accBefore sched i ≤ (now - epoch).toNat % totalDuration sched)
    (hhi : (now - epoch).toNat % totalDuration sched
        < accBefore sched i + (sched.get ⟨i, hi⟩).duration) :
    get_current_program sched epoch now =
      some ⟨epoch + (((now - epoch).toNat / totalDuration sched * totalDuration sched
              + accBefore sched i : Nat) : Int),
            (sched.get ⟨i, hi⟩).program, (sched.get ⟨i, hi⟩).duration,
            (sched.get ⟨i, hi⟩).is_ad⟩ := by
  have hne : sched ≠ [] := by
    intro h
    rw [h] at hi
    simp at hi
  have hT0 : totalDuration sched ≠ 0 := by omega
  have hfe := findEntry_at sched 0 ((now - epoch).toNat % totalDuration sched) i hi
      (by omega) (by omega)
  rw [Nat.zero_add] at hfe
  unfold get_current_program
  rw [if_neg hne, if_neg hT0, hfe]

/-- Witness for C1: Scenario B — Scenario A's first timeline cycle at
`now = epoch + 950000` resolves to the ad-break entry with
`program_start = epoch + 900000` (offset 50000). -/
theorem get_current_program_locates_witness :
    0 < totalDuration
        [⟨0, MediaRef.showRef "S1", 300000, false⟩,
         ⟨300000, MediaRef.showRef "S2", 600000, false⟩,
         ⟨900000, MediaRef.adSeg "A1" 0 60000, 60000, true⟩,
         ⟨960000, MediaRef.adSeg "A1" 0 60000, 60000, true⟩,
         ⟨1020000, MediaRef.adSeg "A1" 0 60000, 60000, true⟩]
    ∧ get_current_program
        [⟨0, MediaRef.showRef "S1", 300000, false⟩,
         ⟨300000, MediaRef.showRef "S2", 600000, false⟩,
         ⟨900000, MediaRef.adSeg "A1" 0 60000, 60000, true⟩,
         ⟨960000, MediaRef.adSeg "A1" 0 60000, 60000, true⟩,
         ⟨1020000, MediaRef.adSeg "A1" 0 60000, 60000, true⟩] 0 950000 =
      some ⟨900000, MediaRef.adSeg "A1" 0 60000, 60000, true⟩ := by
  refine ⟨by decide, ?_⟩
  have h := get_current_program_locates
      [⟨0, MediaRef.showRef "S1", 300000, false⟩,
       ⟨300000, MediaRef.showRef "S2", 600000, false⟩,
       ⟨900000, MediaRef.adSeg "A1" 0 60000, 60000, true⟩,
       ⟨960000, MediaRef.adSeg "A1" 0 60000, 60000, true⟩,
       ⟨1020000, MediaRef.adSeg "A1" 0 60000, 60000, true⟩] 0 950000 2
      (by decide) (by decide) (by decide) (by decide)
  rw [h]
  decide

/-- C5: one full loop later the resolver returns the same item, duration and
is_ad flag, with `program_start` advanced by exactly the total duration. -/
theorem get_current_program_loops (sched : List ScheduleEntry) (epoch now : Int)
    (r : ProgramInfo) (hnow : epoch ≤ now)
    (h : get_current_program sched epoch now = some r) :
    get_current_program sched epoch (now + (totalDuration sched : Int)) =
      some ⟨r.program_start + (totalDuration sched : Int), r.program, r.duration, r.is_ad⟩ := by
  have hne : sched ≠ [] := by
    intro habs
    rw [habs] at h
    exact Option.noConfusion h
  have hT : totalDuration sched ≠ 0 := by
    intro habs
    unfold get_current_program at h
    rw [if_neg hne, if_pos habs] at h
    exact Option.noConfusion h
  have hTpos : 0 < totalDuration sched := Nat.pos_of_ne_zero hT
  set T := totalDuration sched with hTdef
  have helps : (now + (T : Int) - epoch).toNat = (now - epoch).toNat + T := by omega
  have hfs := findEntry_isSome sched 0 ((now - epoch).toNat % T) (Nat.zero_le _)
      (by have := Nat.mod_lt (now - epoch).toNat hTpos; omega)
  obtain ⟨⟨acc, e⟩, hfe⟩ := Option.isSome_iff_exists.mp hfs
  unfold get_current_program at h ⊢
  rw [if_neg hne, if_neg hT] at h ⊢
  rw [hfe] at h
  rw [helps, Nat.add_mod_right, hfe]
  have hr := Option.some.inj h
  subst hr
  have hdiv : ((now - epoch).toNat + T) / T = (now - epoch).toNat / T + 1 :=
    Nat.add_div_right _ hTpos
  rw [hdiv]
  have hps : (((((now - epoch).toNat / T + 1) * T + acc : Nat)) : Int) =
      (((now - epoch).toNat / T * T + acc : Nat) : Int) + (T : Int) := by
    push_cast
    ring
  simp only [hps]
  congr 1
  simp only [ProgramInfo.mk.injEq, and_true, true_and]
  ring

/-- Witness for C5: Scenario C on a two-show timeline of total 900000 ms —
`now = epoch + 50000` and `now = epoch + total + 50000` resolve to the same
item with `program_start` shifted by the total. -/
theorem get_current_program_loops_witness :
    ((0 : Int) ≤ 50000
      ∧ get_current_program
          [⟨0, MediaRef.showRef "W1", 300000, false⟩,
           ⟨300000, MediaRef.showRef "W2", 600000, false⟩] 0 50000 =
        some ⟨0, MediaRef.showRef "W1", 300000, false⟩)
    ∧ get_current_program
        [⟨0, MediaRef.showRef "W1", 300000, false⟩,
         ⟨300000, MediaRef.showRef "W2", 600000, false⟩] 0
        (50000 + (totalDuration
          [⟨0, MediaRef.showRef "W1", 300000, false⟩,
           ⟨300000, MediaRef.showRef "W2", 600000, false⟩] : Int)) =
      some ⟨(0 : Int) + (totalDuration
          [⟨0, MediaRef.showRef "W1", 300000, false⟩,
           ⟨300000, MediaRef.showRef "W2", 600000, false⟩] : Int),
        MediaRef.showRef "W1", 300000, false⟩ :=
  ⟨⟨by decide, by decide⟩,
   get_current_program_loops
      [⟨0, MediaRef.showRef "W1", 300000, false⟩,
       ⟨300000, MediaRef.showRef "W2", 600000, false⟩] 0 50000
      ⟨0, MediaRef.showRef "W1", 300000, false⟩ (by decide) (by decide)⟩

/-! The ad break (C3). -/

lemma adLoop_spec (dur : String → Nat) (ads : List String) (hads : ads ≠ []) :
    ∀ (fuel B : Nat) (ct : Int) (ai : Nat) (es : List ScheduleEntry) (ct2 : Int)
      (ai2 : Nat), adLoop dur ads fuel B ct ai = some (es, ct2, ai2) →
      (es.map (fun e => e.duration)).sum = B ∧ ct2 = ct + (B : Int)
      ∧ ai2 = ai + es.length
      ∧ ∀ j (hj : j < es.length),
          (es.get ⟨j, hj⟩).duration =
            min (dur (ads.getD ((ai + j) % ads.length) ""))
              (B - ((es.take j).map (fun e => e.duration)).sum)
          ∧ (es.get ⟨j, hj⟩).is_ad = true
          ∧ (es.get ⟨j, hj⟩).program =
              MediaRef.adSeg (ads.getD ((ai + j) % ads.length) "") 0
                ((es.get ⟨j, hj⟩).duration) := by
  intro fuel
  induction fuel with
  | zero =>
      intro B ct ai es ct2 ai2 h
      simp only [adLoop] at h
      split at h
      · exact Option.noConfusion h
      · next hc =>
          have hB : B = 0 := by
            by_contra hB
            exact hc ⟨Nat.pos_of_ne_zero hB, hads⟩
          rw [Option.some.injEq, Prod.mk.injEq, Prod.mk.injEq] at h
          obtain ⟨h1, h2, h3⟩ := h
          subst h1; subst h2; subst h3; subst hB
          refine ⟨rfl, by simp, by simp, ?_⟩
          intro j hj
          simp at hj
  | succ fuel ih =>
      intro B ct ai es ct2 ai2 h
      simp only [adLoop] at h
      split at h
      · next hc =>
          split at h
          · exact Option.noConfusion h
          · next rest rct rai hrec =>
              rw [Option.some.injEq, Prod.mk.injEq, Prod.mk.injEq] at h
              obtain ⟨h1, h2, h3⟩ := h
              subst h1; subst h2; subst h3
              obtain ⟨ihsum, ihct, ihai, ihj⟩ := ih _ _ _ _ _ _ hrec
              have hdle : min (dur (ads.getD (ai % ads.length) "")) B ≤ B :=
                min_le_right _ _
              refine ⟨?_, ?_, ?_, ?_⟩
              · simp only [List.map_cons, List.sum_cons]
                omega
              · rw [ihct]
                omega
              · simp only [List.length_cons]
                omega
              · intro j hj
                cases j with
                | zero =>
                    simp only [List.get_cons_zero, List.take_zero, List.map_nil,
                      List.sum_nil, Nat.sub_zero, Nat.add_zero]
                    exact ⟨rfl, rfl, rfl⟩
                | succ k =>
                    have hk : k < rest.length := by
                      simpa using hj
                    have hidx : ai + 1 + k = ai + (k + 1) := by omega
                    obtain ⟨ihd, ihad, ihprog⟩ := ihj k hk
                    rw [hidx] at ihd ihprog
                    simp only [List.get_cons_succ, List.take_succ_cons,
                      List.map_cons, List.sum_cons]
                    refine ⟨?_, ihad, ihprog⟩
                    rw [ihd, Nat.sub_sub]
      · next hc =>
          have hB : B = 0 := by
            by_contra hB
            exact hc ⟨Nat.pos_of_ne_zero hB, hads⟩
          rw [Option.some.injEq, Prod.mk.injEq, Prod.mk.injEq] at h
          obtain ⟨h1, h2, h3⟩ := h
          subst h1; subst h2; subst h3; subst hB
          refine ⟨rfl, by simp, by simp, ?_⟩
          intro j hj
          simp at hj

lemma adLoop_single_trunc (dur : String → Nat) (a : String) (B : Nat) (ct : Int)
    (ai : Nat) (hB : 0 < B) (hD : B < dur a) :
    adLoop dur [a] B B ct ai =
      some ([⟨ct, MediaRef.adSeg a 0 B, B, true⟩], ct + (B : Int), ai + 1) := by
  obtain ⟨b, rfl⟩ : ∃ b, B = b + 1 := ⟨B - 1, by omega⟩
  simp only [adLoop]
  rw [if_pos ⟨by omega, by simp⟩]
  have hget : [a].getD (ai % [a].length) "" = a := by
    simp [Nat.mod_one]
  rw [hget]
  have hmin : min (dur a) (b + 1) = b + 1 := by omega
  rw [hmin]
  have hz : b + 1 - (b + 1) = 0 := by omega
  rw [hz, adLoop_zero]

/-- C3: a terminating ad break of budget `B` consists of entries picked by
wrapping modulo indexing through the ad list, each placed with duration
`min(ad duration, remaining budget)`, summing to exactly `B` (advancing
`current_time` by `B` and `ad_index` by the number of entries); in particular a
single candidate ad of duration `D > B` yields one ad entry truncated to `B`. -/
theorem ad_break_composition (dur : String → Nat) :
    (∀ (ads : List String) (fuel B : Nat) (ct : Int) (ai : Nat)
        (es : List ScheduleEntry) (ct2 : Int) (ai2 : Nat), ads ≠ [] →
        adLoop dur ads fuel B ct ai = some (es, ct2, ai2) →
        (es.map (fun e => e.duration)).sum = B ∧ ct2 = ct + (B : Int)
        ∧ ai2 = ai + es.length
        ∧ ∀ j (hj : j < es.length),
            (es.get ⟨j, hj⟩).duration =
              min (dur (ads.getD ((ai + j) % ads.length) ""))
                (B - ((es.take j).map (fun e => e.duration)).sum)
            ∧ (es.get ⟨j, hj⟩).is_ad = true
            ∧ (es.get ⟨j, hj⟩).program =
                MediaRef.adSeg (ads.getD ((ai + j) % ads.length) "") 0
                  ((es.get ⟨j, hj⟩).duration))
    ∧ (∀ (a : String) (B : Nat) (ct : Int) (ai : Nat), 0 < B → B < dur a →
        adLoop dur [a] B B ct ai =
          some ([⟨ct, MediaRef.adSeg a 0 B, B, true⟩], ct + (B : Int), ai + 1)) :=
  ⟨fun ads fuel B ct ai es ct2 ai2 hads h =>
      adLoop_spec dur ads hads fuel B ct ai es ct2 ai2 h,
   fun a B ct ai hB hD => adLoop_single_trunc dur a B ct ai hB hD⟩

/-- Witness for C3: the Scenario A ad break (budget 180000, one 60000 ms ad)
is three 60000 ms segments summing to the budget, and a 60000 ms ad against a
100 ms budget is truncated to 100 ms. -/
theorem ad_break_composition_witness :
    adLoop (fun _ => 60000) ["A1"] 180000 180000 900000 0 =
      some ([⟨900000, MediaRef.adSeg "A1" 0 60000, 60000, true⟩,
             ⟨960000, MediaRef.adSeg "A1" 0 60000, 60000, true⟩,
             ⟨1020000, MediaRef.adSeg "A1" 0 60000, 60000, true⟩], 1080000, 3)
    ∧ ((([⟨900000, MediaRef.adSeg "A1" 0 60000, 60000, true⟩,
          ⟨960000, MediaRef.adSeg "A1" 0 60000, 60000, true⟩,
          ⟨1020000, MediaRef.adSeg "A1" 0 60000, 60000, true⟩] :
         List ScheduleEntry).map (fun e => e.duration)).sum = 180000)
    ∧ adLoop (fun _ => 60000) ["A1"] 100 100 0 0 =
        some ([⟨0, MediaRef.adSeg "A1" 0 100, 100, true⟩], 100, 1) :=
  ⟨(by decide),
   ((ad_break_composition (fun _ => 60000)).1 ["A1"] 180000 180000 900000 0
      [⟨900000, MediaRef.adSeg "A1" 0 60000, 60000, true⟩,
       ⟨960000, MediaRef.adSeg "A1" 0 60000, 60000, true⟩,
       ⟨1020000, MediaRef.adSeg "A1" 0 60000, 60000, true⟩] 1080000 3
      (by decide) (by decide)).1,
   (by
      exact (ad_break_composition (fun _ => 60000)).2 "A1" 100 0 0
        (by decide) (by decide))⟩

/-! Contiguity and coverage of built timelines (C2, C9, C10). -/

lemma contigFrom_append :
    ∀ (xs : List ScheduleEntry) (t : Int) (ys : List ScheduleEntry),
      contigFrom t xs → contigFrom (t + (totalDuration xs : Int)) ys →
      contigFrom t (xs ++ ys) := by
  intro xs
  induction xs with
  | nil =>
      intro t ys _ hys
      simpa [totalDuration_nil] using hys
  | cons e rest ih =>
      intro t ys hxs hys
      obtain ⟨he, hrest⟩ := hxs
      rw [List.cons_append]
      refine ⟨he, ?_⟩
      refine ih (t + (e.duration : Int)) ys hrest ?_
      have harith : t + (e.duration : Int) + (totalDuration rest : Int) =
          t + (totalDuration (e :: rest) : Int) := by
        rw [totalDuration_cons]
        push_cast
        ring
      rw [harith]
      exact hys

lemma contigFrom_chain :
    ∀ (es : List ScheduleEntry) (t : Int), contigFrom t es →
      List.Chain' (fun a b => a.start_time + (a.duration : Int) = b.start_time) es := by
  intro es
  induction es with
  | nil => intro t _; simp
  | cons e rest ih =>
      intro t h
      obtain ⟨he, hrest⟩ := h
      cases rest with
      | nil => simp
      | cons f rest2 =>
          obtain ⟨hf, hrest2⟩ := hrest
          rw [List.chain'_cons]
          exact ⟨by rw [he, hf], ih (t + (e.duration : Int)) ⟨hf, hrest2⟩⟩

lemma contigFrom_cover :
    ∀ (es : List ScheduleEntry) (t x : Int), contigFrom t es → t ≤ x →
      x < t + (totalDuration es : Int) →
      ∃ e ∈ es, e.start_time ≤ x ∧ x < e.start_time + (e.duration : Int) := by
  intro es
  induction es with
  | nil =>
      intro t x _ h1 h2
      rw [totalDuration_nil] at h2
      exact absurd h2 (by push_cast; omega)
  | cons e rest ih =>
      intro t x h h1 h2
      obtain ⟨he, hrest⟩ := h
      by_cases hin : x < t + (e.duration : Int)
      · exact ⟨e, List.mem_cons_self _ _, by rw [he]; exact h1, by rw [he]; exact hin⟩
      · have h2' : x < (t + (e.duration : Int)) + (totalDuration rest : Int) := by
          rw [totalDuration_cons] at h2
          push_cast at h2 ⊢
          omega
        obtain ⟨f, hf, hfx⟩ := ih (t + (e.duration : Int)) x hrest (by omega) h2'
        exact ⟨f, List.mem_cons_of_mem _ hf, hfx⟩

lemma adLoop_contig (dur : String → Nat) (ads : List String) :
    ∀ (fuel B : Nat) (ct : Int) (ai : Nat) (es : List ScheduleEntry) (ct2 : Int)
      (ai2 : Nat), adLoop dur ads fuel B ct ai = some (es, ct2, ai2) →
      contigFrom ct es ∧ ct2 = ct + (totalDuration es : Int)
      ∧ ∀ e ∈ es, e.is_ad = true := by
  intro fuel
  induction fuel with
  | zero =>
      intro B ct ai es ct2 ai2 h
      simp only [adLoop] at h
      split at h
      · exact Option.noConfusion h
      · rw [Option.some.injEq, Prod.mk.injEq, Prod.mk.injEq] at h
        obtain ⟨h1, h2, h3⟩ := h
        subst h1; subst h2; subst h3
        exact ⟨trivial, by simp [totalDuration_nil], by simp⟩
  | succ fuel ih =>
      intro B ct ai es ct2 ai2 h
      simp only [adLoop] at h
      split at h
      · split at h
        · exact Option.noConfusion h
        · next rest rct rai hrec =>
            rw [Option.some.injEq, Prod.mk.injEq, Prod.mk.injEq] at h
            obtain ⟨h1, h2, h3⟩ := h
            subst h1; subst h2; subst h3
            obtain ⟨ihc, ihct, ihad⟩ := ih _ _ _ _ _ _ hrec
            refine ⟨⟨rfl, ihc⟩, ?_, ?_⟩
            · simp only [totalDuration_cons]
              push_cast at ihct ⊢
              omega
            · intro e he
              rcases List.mem_cons.mp he with rfl | hmem
              · rfl
              · exact ihad e hmem
      · rw [Option.some.injEq, Prod.mk.injEq, Prod.mk.injEq] at h
        obtain ⟨h1, h2, h3⟩ := h
        subst h1; subst h2; subst h3
        exact ⟨trivial, by simp [totalDuration_nil], by simp⟩

lemma buildLoop_spec (dur : String → Nat) (shows ads : List String) (adBreakMs : Nat)
    (endTime : Int) :
    ∀ (fuel : Nat) (ct : Int) (si ai : Nat) (es : List ScheduleEntry),
      buildLoop dur shows ads adBreakMs endTime fuel ct si ai = some es →
      contigFrom ct es ∧
        (endTime ≤ ct + (totalDuration es : Int) ∨ (¬ ct < endTime ∧ es = [])) := by
  intro fuel
  induction fuel with
  | zero =>
      intro ct si ai es h
      simp only [buildLoop] at h
      split at h
      · exact Option.noConfusion h
      · next hend =>
          obtain rfl := (Option.some.inj h).symm
          exact ⟨trivial, Or.inr ⟨hend, rfl⟩⟩
  | succ fuel ih =>
      intro ct si ai es h
      simp only [buildLoop] at h
      split at h
      · next hct =>
          split at h
          · next hbranch =>
              split at h
              · exact Option.noConfusion h
              · next adEntries ct3 ai2 hadrec =>
                  split at h
                  · exact Option.noConfusion h
                  · next rest hrest =>
                      obtain rfl := (Option.some.inj h).symm
                      obtain ⟨ihc, ihdisj⟩ := ih _ _ _ _ hrest
                      obtain ⟨hadc, hadct, _⟩ :=
                        adLoop_contig dur ads _ _ _ _ _ _ _ hadrec
                      constructor
                      · refine ⟨rfl, ?_⟩
                        refine contigFrom_append _ _ _ hadc ?_
                        rw [← hadct]
                        exact ihc
                      · left
                        simp only [totalDuration_cons, totalDuration_append]
                        push_cast at hadct ⊢
                        rcases ihdisj with hle | ⟨hnlt, rfl⟩
                        · omega
                        · simp only [totalDuration_nil]
                          push_cast at hnlt ⊢
                          omega
          · next hbranch =>
              split at h
              · exact Option.noConfusion h
              · next rest hrest =>
                  obtain rfl := (Option.some.inj h).symm
                  obtain ⟨ihc, ihdisj⟩ := ih _ _ _ _ hrest
                  constructor
                  · exact ⟨rfl, ihc⟩
                  · left
                    simp only [totalDuration_cons]
                    push_cast
                    rcases ihdisj with hle | ⟨hnlt, rfl⟩
                    · omega
                    · simp only [totalDuration_nil]
                      push_cast at hnlt ⊢
                      omega
      · next hct =>
          obtain rfl := (Option.some.inj h).symm
          exact ⟨trivial, Or.inr ⟨hct, rfl⟩⟩

/-- C2 (amended): for a non-empty shows list and a successful build, the
timeline's entries are contiguous and non-overlapping, the first entry starts
exactly at the epoch, and the entries' half-open intervals tile
`[epoch, epoch + total)` with no gap, where `total` is the sum of all entry
durations and is at least the 48-hour horizon — but in general strictly more
than it, because a whole show (and a whole ad break) is placed whenever
`current_time` is still below `end_time`. -/
theorem build_tiles_amended (dur : String → Nat) (shows ads : List String)
    (adBreakMs : Nat) (epoch : Int) (fuel : Nat) (sched : List ScheduleEntry)
    (hshows : shows ≠ [])
    (hb : build_tv_schedule dur shows ads adBreakMs epoch fuel = some sched) :
    contigFrom epoch sched
    ∧ List.Chain' (fun a b => a.start_time + (a.duration : Int) = b.start_time) sched
    ∧ sched.head?.map (fun e => e.start_time) = some epoch
    ∧ horizonMs ≤ totalDuration sched
    ∧ ∀ x : Int, epoch ≤ x → x < epoch + (totalDuration sched : Int) →
        ∃ e ∈ sched, e.start_time ≤ x ∧ x < e.start_time + (e.duration : Int) := by
  unfold build_tv_schedule at hb
  rw [if_neg hshows] at hb
  obtain ⟨hcontig, hdisj⟩ := buildLoop_spec dur shows ads adBreakMs _ fuel epoch 0 0 sched hb
  have hhor : (0 : Int) < (horizonMs : Nat) := by norm_num [horizonMs]
  have hlt : epoch < epoch + (horizonMs : Int) := by omega
  have htot : horizonMs ≤ totalDuration sched := by
    rcases hdisj with hle | ⟨hnlt, _⟩
    · omega
    · exact absurd hlt hnlt
  have hne : sched ≠ [] := by
    intro habs
    rw [habs, totalDuration_nil] at htot
    norm_num [horizonMs] at htot
  refine ⟨hcontig, contigFrom_chain sched epoch hcontig, ?_, htot,
    fun x hx1 hx2 => contigFrom_cover sched epoch x hcontig hx1 hx2⟩
  cases sched with
  | nil => exact absurd rfl hne
  | cons e rest =>
      obtain ⟨he, _⟩ := hcontig
      simp [he]

/-- Counterexample for C2 as stated: one 100000-second show, no ads — the
built timeline's second entry ends at `epoch + 200000000 ms`, strictly past
the 48-hour horizon `epoch + 172800000 ms`, so coverage does extend beyond
the horizon. -/
theorem build_tiles_counterexample :
    build_tv_schedule (fun _ => 100000000) ["s"] [] 180000 0 5 =
      some [⟨0, MediaRef.showRef "s", 100000000, false⟩,
            ⟨100000000, MediaRef.showRef "s", 100000000, false⟩]
    ∧ ¬ (∀ e ∈ [(⟨0, MediaRef.showRef "s", 100000000, false⟩ : ScheduleEntry),
                ⟨100000000, MediaRef.showRef "s", 100000000, false⟩],
          e.start_time + (e.duration : Int) ≤ (0 : Int) + (horizonMs : Int)) := by
  constructor
  · decide
  · decide

/-- Witness for C2's amended theorem at the counterexample input. -/
theorem build_tiles_amended_witness :
    (["s"] ≠ ([] : List String)
      ∧ build_tv_schedule (fun _ => 100000000) ["s"] [] 180000 (0 : Int) 5 =
          some [⟨0, MediaRef.showRef "s", 100000000, false⟩,
                ⟨100000000, MediaRef.showRef "s", 100000000, false⟩])
    ∧ horizonMs ≤ totalDuration
        [⟨0, MediaRef.showRef "s", 100000000, false⟩,
         ⟨100000000, MediaRef.showRef "s", 100000000, false⟩] :=
  ⟨⟨(by decide), (by decide)⟩,
   (build_tiles_amended (fun _ => 100000000) ["s"] [] 180000 0 5
      [⟨0, MediaRef.showRef "s", 100000000, false⟩,
       ⟨100000000, MediaRef.showRef "s", 100000000, false⟩]
      (by decide) (by decide)).2.2.2.1⟩

lemma buildLoop_no_ads (dur : String → Nat) (shows : List String) (adBreakMs : Nat)
    (endTime : Int) :
    ∀ (fuel : Nat) (ct : Int) (si ai : Nat) (es : List ScheduleEntry),
      buildLoop dur shows [] adBreakMs endTime fuel ct si ai = some es →
      ∀ e ∈ es, e.is_ad = false := by
  intro fuel
  induction fuel with
  | zero =>
      intro ct si ai es h
      simp only [buildLoop] at h
      split at h
      · exact Option.noConfusion h
      · obtain rfl := (Option.some.inj h).symm
        intro e he
        simp at he
  | succ fuel ih =>
      intro ct si ai es h
      simp only [buildLoop] at h
      split at h
      · split at h
        · next hbranch => exact absurd rfl hbranch.1
        · next hbranch =>
            split at h
            · exact Option.noConfusion h
            · next rest hrest =>
                obtain rfl := (Option.some.inj h).symm
                intro e he
                rcases List.mem_cons.mp he with rfl | hmem
                · rfl
                · exact ih _ _ _ _ hrest e hmem
      · obtain rfl := (Option.some.inj h).symm
        intro e he
        simp at he

/-- C9: building with an empty ads list yields a timeline with zero
`is_ad = true` entries, and consecutive entries (all shows) are back-to-back
with zero gap. -/
theorem empty_ads_continuity (dur : String → Nat) (shows : List String)
    (adBreakMs : Nat) (epoch : Int) (fuel : Nat) (sched : List ScheduleEntry)
    (hb : build_tv_schedule dur shows [] adBreakMs epoch fuel = some sched) :
    (∀ e ∈ sched, e.is_ad = false)
    ∧ List.Chain' (fun a b => a.start_time + (a.duration : Int) = b.start_time)
        sched := by
  unfold build_tv_schedule at hb
  by_cases hs : shows = []
  · rw [if_pos hs] at hb
    obtain rfl := (Option.some.inj hb).symm
    exact ⟨fun e he => by simp at he, by simp⟩
  · rw [if_neg hs] at hb
    exact ⟨buildLoop_no_ads dur shows adBreakMs _ fuel epoch 0 0 sched hb,
      contigFrom_chain sched epoch
        (buildLoop_spec dur shows [] adBreakMs _ fuel epoch 0 0 sched hb).1⟩

/-- Witness for C9 at a concrete two-show build with no ads. -/
theorem empty_ads_continuity_witness :
    build_tv_schedule (fun _ => 90000000) ["s9"] [] 180000 (0 : Int) 5 =
      some [⟨0, MediaRef.showRef "s9", 90000000, false⟩,
            ⟨90000000, MediaRef.showRef "s9", 90000000, false⟩]
    ∧ ∀ e ∈ [(⟨0, MediaRef.showRef "s9", 90000000, false⟩ : ScheduleEntry),
             ⟨90000000, MediaRef.showRef "s9", 90000000, false⟩], e.is_ad = false :=
  ⟨(by decide),
   (empty_ads_continuity (fun _ => 90000000) ["s9"] 180000 0 5
      [⟨0, MediaRef.showRef "s9", 90000000, false⟩,
       ⟨90000000, MediaRef.showRef "s9", 90000000, false⟩] (by decide)).1⟩

/-! Termination of the build (C10). -/

lemma getD_mod_mem (l : List String) (n : Nat) (hl : l ≠ []) :
    l.getD (n % l.length) "" ∈ l := by
  have hlen : 0 < l.length := List.length_pos.mpr hl
  have hlt : n % l.length < l.length := Nat.mod_lt _ hlen
  rw [List.getD_eq_getElem l "" hlt]
  exact List.getElem_mem hlt

lemma adLoop_isSome (dur : String → Nat) (ads : List String)
    (hpos : ∀ x ∈ ads, 0 < dur x) :
    ∀ (fuel B : Nat) (ct : Int) (ai : Nat), B ≤ fuel →
      (adLoop dur ads fuel B ct ai).isSome = true := by
  intro fuel
  induction fuel with
  | zero =>
      intro B ct ai hB
      have hB0 : B = 0 := by omega
      subst hB0
      rw [adLoop_zero]
      rfl
  | succ fuel ih =>
      intro B ct ai hB
      simp only [adLoop]
      split
      · next hc =>
          have hmem : ads.getD (ai % ads.length) "" ∈ ads := getD_mod_mem ads ai hc.2
          have hdpos : 0 < dur (ads.getD (ai % ads.length) "") := hpos _ hmem
          have hmin : 0 < min (dur (ads.getD (ai % ads.length) "")) B := by
            rcases hc with ⟨hBpos, _⟩
            omega
          have hrec := ih (B - min (dur (ads.getD (ai % ads.length) "")) B)
              (ct + ((min (dur (ads.getD (ai % ads.length) "")) B : Nat) : Int))
              (ai + 1) (by omega)
          obtain ⟨⟨rest, rct, rai⟩, hsome⟩ := Option.isSome_iff_exists.mp hrec
          rw [hsome]
          rfl
      · rfl

lemma buildLoop_isSome (dur : String → Nat) (shows ads : List String)
    (adBreakMs : Nat) (endTime : Int) (hshows : shows ≠ [])
    (hs : ∀ x ∈ shows, 0 < dur x) (ha : ∀ x ∈ ads, 0 < dur x) :
    ∀ (fuel : Nat) (ct : Int) (si ai : Nat), (endTime - ct).toNat ≤ fuel →
      (buildLoop dur shows ads adBreakMs endTime fuel ct si ai).isSome = true := by
  intro fuel
  induction fuel with
  | zero =>
      intro ct si ai hfuel
      simp only [buildLoop]
      rw [if_neg (by omega)]
      rfl
  | succ fuel ih =>
      intro ct si ai hfuel
      simp only [buildLoop]
      split
      · next hct =>
          have hsd : 0 < dur (shows.getD (si % shows.length) "") :=
            hs _ (getD_mod_mem shows si hshows)
          split
          · next hbranch =>
              have hadSome := adLoop_isSome dur ads ha adBreakMs adBreakMs
                  (ct + (dur (shows.getD (si % shows.length) "") : Int)) ai
                  (le_refl _)
              obtain ⟨⟨adEntries, ct3, ai2⟩, hadrec⟩ :=
                Option.isSome_iff_exists.mp hadSome
              obtain ⟨_, hadct, _⟩ := adLoop_contig dur ads _ _ _ _ _ _ _ hadrec
              have hrec := ih ct3 (si + 1) ai2 (by omega)
              obtain ⟨rest, hrest⟩ := Option.isSome_iff_exists.mp hrec
              simp only [hadrec, hrest]
              rfl
          · next hbranch =>
              have hrec := ih (ct + (dur (shows.getD (si % shows.length) "") : Int))
                  (si + 1) ai (by omega)
              obtain ⟨rest, hrest⟩ := Option.isSome_iff_exists.mp hrec
              rw [hrest]
              rfl
      · rfl

/-- C10: the schedule builder terminates for every channel with a non-empty
shows list, provided every duration the lookup returns for its shows and ads
is strictly positive (48-hour horizon worth of fuel suffices, since each show
placement advances `current_time` and each ad placement strictly shrinks the
remaining break budget); the positivity precondition is genuine: a
zero-duration ad makes the inner break loop fail to progress, exhausting any
amount of fuel. -/
theorem build_terminates (dur : String → Nat) (shows ads : List String)
    (adBreakMs : Nat) (epoch : Int) (hshows : shows ≠ [])
    (hs : ∀ x ∈ shows, 0 < dur x) (ha : ∀ x ∈ ads, 0 < dur x) :
    (∃ fuel, (build_tv_schedule dur shows ads adBreakMs epoch fuel).isSome = true)
    ∧ (∀ (budget : Nat) (ct : Int) (ai fuel : Nat), 0 < budget →
        adLoop (fun _ => 0) ["x"] fuel budget ct ai = none) := by
  constructor
  · refine ⟨horizonMs, ?_⟩
    unfold build_tv_schedule
    rw [if_neg hshows]
    refine buildLoop_isSome dur shows ads adBreakMs (epoch + (horizonMs : Int))
      hshows hs ha horizonMs epoch 0 0 (by omega)
  · intro budget ct ai fuel hpos
    induction fuel generalizing ct ai with
    | zero =>
        simp only [adLoop]
        rw [if_pos ⟨hpos, by simp⟩]
    | succ fuel ih =>
        simp only [adLoop]
        rw [if_pos ⟨hpos, by simp⟩]
        have hmin : min ((fun _ : String => 0) (["x"].getD (ai % ["x"].length) "")) budget
            = 0 := by simp
        rw [hmin]
        have hz : budget - 0 = budget := by omega
        rw [hz, ih (ct + ((0 : Nat) : Int)) (ai + 1)]

/-- Witness for C10: a single 100000-second show and one ad, all positive
durations — the build completes. -/
theorem build_terminates_witness :
    ∃ fuel, (build_tv_schedule (fun _ => 100000000) ["s2"] ["a2"] 180000 0
      fuel).isSome = true :=
  (build_terminates (fun _ => 100000000) ["s2"] ["a2"] 180000 0 (by decide)
    (by decide) (by decide)).1
